import Mathlib

/-!
Verification of the detector-flattening interpolation kernel.

The repository holds two near-identical C translation units,
`src/flattening/interpolate.c` (function `interpolation_loop`) and
`src/flattening/c_library/interpolate.c` (function `interp_loop`).
Each is a triple loop over `(i, r, j)` that resamples a curved-detector
projection volume `proj` onto a flat detector, writing `out`, using the
precomputed table `normalized_angles`.

Embedding conventions:
* C float/double values are modelled as rationals `ℚ` (exact arithmetic;
  the C code computes `x`, `t` and the blend in double and narrows the
  result to float on the write — the rational model idealises rounding).
* Flat buffers behind the C pointers are total functions `ℤ → ℚ`; pointer
  arithmetic becomes integer offset arithmetic.
* The per-element `int` index `idx = (int)floor(x)` is modelled as the
  exact mathematical floor `⌊x⌋ : ℤ`.
* Row-base offsets are modelled exactly (unbounded `ℤ`); the C `int`
  (32-bit wrapping) evaluation of the same expressions is modelled
  separately by `wrap32`, `proj_offset32` and `out_offset32`.
* The loop nest is modelled as a left fold of single-element
  `Function.update` writes over the row-major work-item list; a parallel
  schedule is any permutation of that list.
-/

/-- Fractional part `t = x - idx` computed by the kernel at column `j`
(lines `double x = normalized_angles[j]; int idx = (int)floor(x);
double t = x - idx;`). -/
def kernelT (normalized_angles : ℤ → ℚ) (j : ℤ) : ℚ :=
  normalized_angles j - (⌊normalized_angles j⌋ : ℚ)

/-- One output sample of the kernel body: the branch on `idx` with left
clamp, right clamp, and linear interpolation, exactly as in the C body of
the `j` loop. `proj_offset` is the row base offset into `proj`. -/
def interpSample (proj normalized_angles : ℤ → ℚ) (orig_num_detectors : ℤ)
    (proj_offset : ℤ) (j : ℤ) : ℚ :=
  let x : ℚ := normalized_angles j
  let idx : ℤ := ⌊x⌋
  let t : ℚ := x - (idx : ℚ)
  if idx < 0 then proj proj_offset
  else if orig_num_detectors - 1 ≤ idx then proj (proj_offset + orig_num_detectors - 1)
  else (1 - t) * proj (proj_offset + idx) + t * proj (proj_offset + idx + 1)

/-- Row base offset `(i * num_rows + r) * num_cols` into `out`
(line `int out_offset = (i * num_rows + r) * num_cols;`), exact. -/
def outBase (num_rows num_cols : ℕ) (ir : ℕ × ℕ) : ℤ :=
  ((ir.1 * num_rows + ir.2) * num_cols : ℕ)

/-- Row base offset `(i * num_rows + r) * orig_num_detectors` into `proj`
(line `int proj_offset = (i * num_rows + r) * orig_num_detectors;`), exact. -/
def projBase (num_rows orig_num_detectors : ℕ) (ir : ℕ × ℕ) : ℤ :=
  ((ir.1 * num_rows + ir.2) * orig_num_detectors : ℕ)

/-- Inner `j` loop for one work item `ir = (i, r)`: writes
`out[out_offset + j]` for `j = 0 .. num_cols - 1`. -/
def rowWrite (proj normalized_angles : ℤ → ℚ)
    (num_rows orig_num_detectors num_cols : ℕ) (ir : ℕ × ℕ)
    (out : ℤ → ℚ) : ℤ → ℚ :=
  (List.range num_cols).foldl
    (fun (acc : ℤ → ℚ) (j : ℕ) =>
      Function.update acc (outBase num_rows num_cols ir + (j : ℤ))
        (interpSample proj normalized_angles orig_num_detectors
          (projBase num_rows orig_num_detectors ir) (j : ℤ)))
    out

/-- Row-major list of the `(i, r)` work items of the collapsed outer loops. -/
def workItems (num_proj num_rows : ℕ) : List (ℕ × ℕ) :=
  (List.range num_proj).flatMap fun i => (List.range num_rows).map fun r => (i, r)

/-- Execution of a list of `(i, r)` work items in the given order; a
parallel schedule is modelled as a permutation of `workItems`. -/
def runItems (proj normalized_angles : ℤ → ℚ)
    (num_rows orig_num_detectors num_cols : ℕ)
    (items : List (ℕ × ℕ)) (out : ℤ → ℚ) : ℤ → ℚ :=
  items.foldl
    (fun acc ir => rowWrite proj normalized_angles num_rows orig_num_detectors num_cols ir acc)
    out

/-- The kernel `interpolation_loop` of `src/flattening/interpolate.c`:
the triple loop in row-major order over all `(i, r)` work items. -/
def interpolation_loop (proj normalized_angles out : ℤ → ℚ)
    (num_proj num_rows orig_num_detectors num_cols : ℕ) : ℤ → ℚ :=
  runItems proj normalized_angles num_rows orig_num_detectors num_cols
    (workItems num_proj num_rows) out

/-- The kernel `interp_loop` of `src/flattening/c_library/interpolate.c`,
transcribed separately from its own translation unit (parameter named
`num_angles` there). -/
def interp_loop (proj normalized_angles out : ℤ → ℚ)
    (num_angles num_rows orig_num_detectors num_cols : ℕ) : ℤ → ℚ :=
  ((List.range num_angles).flatMap fun i => (List.range num_rows).map fun r => (i, r)).foldl
    (fun acc ir =>
      (List.range num_cols).foldl
        (fun (acc2 : ℤ → ℚ) (j : ℕ) =>
          Function.update acc2 (((ir.1 * num_rows + ir.2) * num_cols : ℕ) + (j : ℤ))
            (let x : ℚ := normalized_angles (j : ℤ)
             let idx : ℤ := ⌊x⌋
             let t : ℚ := x - (idx : ℚ)
             if idx < 0 then proj ((ir.1 * num_rows + ir.2) * orig_num_detectors : ℕ)
             else if (orig_num_detectors : ℤ) - 1 ≤ idx then
               proj ((((ir.1 * num_rows + ir.2) * orig_num_detectors : ℕ) : ℤ) +
                 (orig_num_detectors : ℤ) - 1)
             else
               (1 - t) * proj ((((ir.1 * num_rows + ir.2) * orig_num_detectors : ℕ) : ℤ) + idx) +
                 t * proj ((((ir.1 * num_rows + ir.2) * orig_num_detectors : ℕ) : ℤ) + idx + 1)))
        acc)
    out

/-- Memory visible to the kernel call: the three caller-owned buffers.
The C function receives `proj` and `normalized_angles` as `const`
pointers and stores only through `out`. -/
structure Mem where
  proj : ℤ → ℚ
  normalized_angles : ℤ → ℚ
  out : ℤ → ℚ

/-- The kernel call as a transformation of the visible memory: it stores
only through the `out` pointer. -/
def interpolation_loop_mem (num_proj num_rows orig_num_detectors num_cols : ℕ)
    (s : Mem) : Mem :=
  { proj := s.proj
    normalized_angles := s.normalized_angles
    out := interpolation_loop s.proj s.normalized_angles s.out
      num_proj num_rows orig_num_detectors num_cols }

/-- Offsets into `proj` read by one execution of the kernel body, per
branch of the clamp. -/
def sampleReads (normalized_angles : ℤ → ℚ) (orig_num_detectors proj_offset j : ℤ) :
    List ℤ :=
  let idx : ℤ := ⌊normalized_angles j⌋
  if idx < 0 then [proj_offset]
  else if orig_num_detectors - 1 ≤ idx then [proj_offset + orig_num_detectors - 1]
  else [proj_offset + idx, proj_offset + idx + 1]

/-- Sequence of `out` offsets stored to by the full loop nest, in program
order. -/
def writeTrace (num_proj num_rows num_cols : ℕ) : List ℤ :=
  (workItems num_proj num_rows).flatMap fun ir =>
    (List.range num_cols).map fun (j : ℕ) => outBase num_rows num_cols ir + (j : ℤ)

/-- Two's-complement wrap-around of a 32-bit signed `int`. -/
def wrap32 (n : ℤ) : ℤ := (n + 2 ^ 31) % 2 ^ 32 - 2 ^ 31

/-- The row base offset `(i * num_rows + r) * orig_num_detectors` as the C
code computes it, with every operation in 32-bit signed `int` arithmetic. -/
def proj_offset32 (num_rows orig_num_detectors i r : ℤ) : ℤ :=
  wrap32 (wrap32 (wrap32 (i * num_rows) + r) * orig_num_detectors)

/-- The row base offset `(i * num_rows + r) * num_cols` as the C code
computes it, with every operation in 32-bit signed `int` arithmetic. -/
def out_offset32 (num_rows num_cols i r : ℤ) : ℤ :=
  wrap32 (wrap32 (wrap32 (i * num_rows) + r) * num_cols)

/-- Offsets into `proj` read by one execution of the kernel body, with the
element offset arithmetic performed in 32-bit signed `int` exactly as the C
expressions evaluate (`proj_offset + idx`, `proj_offset + idx + 1` and
`proj_offset + orig_num_detectors - 1`, each operation wrapping);
`proj_offset` is the already-computed 32-bit row base. -/
def sampleReads32 (normalized_angles : ℤ → ℚ) (orig_num_detectors proj_offset j : ℤ) :
    List ℤ :=
  let idx : ℤ := ⌊normalized_angles j⌋
  if idx < 0 then [proj_offset]
  else if orig_num_detectors - 1 ≤ idx then
    [wrap32 (wrap32 (proj_offset + orig_num_detectors) - 1)]
  else [wrap32 (proj_offset + idx), wrap32 (wrap32 (proj_offset + idx) + 1)]

/-! Helper lemmas characterising the fold-of-writes execution. -/

lemma foldl_update_range_ne (g : ℕ → ℚ) (base : ℤ) (C : ℕ) (o : ℤ → ℚ) (off : ℤ)
    (h : ∀ j : ℕ, j < C → off ≠ base + (j : ℤ)) :
    ((List.range C).foldl (fun (acc : ℤ → ℚ) (j : ℕ) => Function.update acc (base + (j : ℤ)) (g j)) o) off
      = o off := by
  induction C with
  | zero => simp
  | succ n ih =>
    rw [List.range_succ, List.foldl_append]
    simp only [List.foldl_cons, List.foldl_nil]
    rw [Function.update_noteq (h n (Nat.lt_succ_self n))]
    exact ih fun j hj => h j (Nat.lt_succ_of_lt hj)

lemma foldl_update_range_eq (g : ℕ → ℚ) (base : ℤ) (C : ℕ) (o : ℤ → ℚ) (j : ℕ) (hj : j < C) :
    ((List.range C).foldl (fun (acc : ℤ → ℚ) (j : ℕ) => Function.update acc (base + (j : ℤ)) (g j)) o)
        (base + (j : ℤ)) = g j := by
  induction C with
  | zero => omega
  | succ n ih =>
    rw [List.range_succ, List.foldl_append]
    simp only [List.foldl_cons, List.foldl_nil]
    rcases Nat.lt_succ_iff_lt_or_eq.mp hj with h | h
    · have hne : base + (j : ℤ) ≠ base + (n : ℤ) := by
        have : (j : ℤ) ≠ (n : ℤ) := by exact_mod_cast Nat.ne_of_lt h
        intro hc
        exact this (by linarith)
      rw [Function.update_noteq hne]
      exact ih h
    · subst h
      exact Function.update_same _ _ _

lemma mem_workItems {num_proj num_rows : ℕ} {ir : ℕ × ℕ} :
    ir ∈ workItems num_proj num_rows ↔ ir.1 < num_proj ∧ ir.2 < num_rows := by
  cases ir with
  | mk i r =>
    simp [workItems, List.mem_flatMap, List.mem_map, List.mem_range]

lemma rowIndex_injective {num_rows : ℕ} {a b : ℕ × ℕ}
    (ha : a.2 < num_rows) (hb : b.2 < num_rows)
    (h : a.1 * num_rows + a.2 = b.1 * num_rows + b.2) : a = b := by
  have hR : 0 < num_rows := Nat.lt_of_le_of_lt (Nat.zero_le _) ha
  have h2 : a.2 = b.2 := by
    have hm := congrArg (fun n => n % num_rows) h
    simpa [Nat.mul_add_mod_of_lt ha, Nat.mul_add_mod_of_lt hb] using hm
  have h1 : a.1 = b.1 := by
    have hd := congrArg (fun n => n / num_rows) h
    simp only [Nat.mul_comm _ num_rows, Nat.mul_add_div hR,
      Nat.div_eq_of_lt ha, Nat.div_eq_of_lt hb, Nat.add_zero] at hd
    exact hd
  exact Prod.ext h1 h2

lemma outBase_add_ne {num_rows num_cols : ℕ} {a b : ℕ × ℕ}
    (ha : a.2 < num_rows) (hb : b.2 < num_rows) (hab : a ≠ b)
    {j k : ℕ} (hj : j < num_cols) (hk : k < num_cols) :
    outBase num_rows num_cols a + (j : ℤ) ≠ outBase num_rows num_cols b + (k : ℤ) := by
  intro h
  apply hab
  have hC : 0 < num_cols := Nat.lt_of_le_of_lt (Nat.zero_le _) hj
  have hnat : (a.1 * num_rows + a.2) * num_cols + j
      = (b.1 * num_rows + b.2) * num_cols + k := by
    have h2 : ((((a.1 * num_rows + a.2) * num_cols : ℕ) : ℤ) + (j : ℤ))
        = ((((b.1 * num_rows + b.2) * num_cols : ℕ) : ℤ) + (k : ℤ)) := h
    exact_mod_cast h2
  have hrow : a.1 * num_rows + a.2 = b.1 * num_rows + b.2 := by
    have hq := congrArg (fun n => n / num_cols) hnat
    simp only [Nat.mul_comm _ num_cols, Nat.mul_add_div hC,
      Nat.div_eq_of_lt hj, Nat.div_eq_of_lt hk, Nat.add_zero] at hq
    exact hq
  exact rowIndex_injective ha hb hrow

lemma rowWrite_untouched (proj normalized_angles : ℤ → ℚ)
    (num_rows orig_num_detectors num_cols : ℕ) (ir : ℕ × ℕ) (out : ℤ → ℚ) (off : ℤ)
    (hoff : ∀ j : ℕ, j < num_cols → off ≠ outBase num_rows num_cols ir + (j : ℤ)) :
    rowWrite proj normalized_angles num_rows orig_num_detectors num_cols ir out off
      = out off := by
  unfold rowWrite
  exact foldl_update_range_ne
    (fun j : ℕ => interpSample proj normalized_angles orig_num_detectors
      (projBase num_rows orig_num_detectors ir) (j : ℤ))
    (outBase num_rows num_cols ir) num_cols out off hoff

lemma rowWrite_at (proj normalized_angles : ℤ → ℚ)
    (num_rows orig_num_detectors num_cols : ℕ) (ir : ℕ × ℕ) (out : ℤ → ℚ)
    (j : ℕ) (hj : j < num_cols) :
    rowWrite proj normalized_angles num_rows orig_num_detectors num_cols ir out
        (outBase num_rows num_cols ir + (j : ℤ))
      = interpSample proj normalized_angles orig_num_detectors
          (projBase num_rows orig_num_detectors ir) (j : ℤ) := by
  unfold rowWrite
  exact foldl_update_range_eq
    (fun j : ℕ => interpSample proj normalized_angles orig_num_detectors
      (projBase num_rows orig_num_detectors ir) (j : ℤ))
    (outBase num_rows num_cols ir) num_cols out j hj

lemma runItems_untouched (proj normalized_angles : ℤ → ℚ)
    (num_rows orig_num_detectors num_cols : ℕ)
    (items : List (ℕ × ℕ)) (out : ℤ → ℚ) (off : ℤ)
    (hoff : ∀ b ∈ items, ∀ j : ℕ, j < num_cols → off ≠ outBase num_rows num_cols b + (j : ℤ)) :
    runItems proj normalized_angles num_rows orig_num_detectors num_cols items out off
      = out off := by
  induction items generalizing out with
  | nil => rfl
  | cons a l ih =>
    show runItems proj normalized_angles num_rows orig_num_detectors num_cols l
        (rowWrite proj normalized_angles num_rows orig_num_detectors num_cols a out) off
      = out off
    rw [ih _ fun b hb => hoff b (List.mem_cons_of_mem a hb)]
    exact rowWrite_untouched proj normalized_angles num_rows orig_num_detectors num_cols a
      out off (hoff a (List.mem_cons_self a l))

lemma runItems_at (proj normalized_angles : ℤ → ℚ)
    (num_rows orig_num_detectors num_cols : ℕ)
    (items : List (ℕ × ℕ)) (out : ℤ → ℚ) (ir : ℕ × ℕ) (j : ℕ)
    (hsnd : ∀ b ∈ items, b.2 < num_rows) (hmem : ir ∈ items) (hj : j < num_cols) :
    runItems proj normalized_angles num_rows orig_num_detectors num_cols items out
        (outBase num_rows num_cols ir + (j : ℤ))
      = interpSample proj normalized_angles orig_num_detectors
          (projBase num_rows orig_num_detectors ir) (j : ℤ) := by
  induction items generalizing out with
  | nil => cases hmem
  | cons a l ih =>
    show runItems proj normalized_angles num_rows orig_num_detectors num_cols l
        (rowWrite proj normalized_angles num_rows orig_num_detectors num_cols a out)
        (outBase num_rows num_cols ir + (j : ℤ)) = _
    by_cases hm : ir ∈ l
    · apply ih
      · exact fun b hb => hsnd b (List.mem_cons_of_mem a hb)
      · exact hm
    · have hia : ir = a := by
        rcases List.mem_cons.mp hmem with h | h
        · exact h
        · exact absurd h hm
      subst hia
      rw [runItems_untouched]
      · exact rowWrite_at proj normalized_angles num_rows orig_num_detectors num_cols ir out j hj
      · intro b hb k hk
        exact outBase_add_ne (hsnd ir (List.mem_cons_self ir l))
          (hsnd b (List.mem_cons_of_mem ir hb))
          (fun he => hm (he ▸ hb)) hj hk

lemma interpolation_loop_at (proj normalized_angles out : ℤ → ℚ)
    (num_proj num_rows orig_num_detectors num_cols : ℕ) (i r j : ℕ)
    (hi : i < num_proj) (hr : r < num_rows) (hj : j < num_cols) :
    interpolation_loop proj normalized_angles out num_proj num_rows orig_num_detectors num_cols
        (outBase num_rows num_cols (i, r) + (j : ℤ))
      = interpSample proj normalized_angles orig_num_detectors
          (projBase num_rows orig_num_detectors (i, r)) (j : ℤ) :=
  runItems_at proj normalized_angles num_rows orig_num_detectors num_cols _ out (i, r) j
    (fun _ hb => (mem_workItems.mp hb).2) (mem_workItems.mpr ⟨hi, hr⟩) hj

lemma outBase_cast (num_rows num_cols i r j : ℕ) :
    (((i * num_rows + r) * num_cols + j : ℕ) : ℤ)
      = outBase num_rows num_cols (i, r) + (j : ℤ) := by
  simp only [outBase]
  push_cast
  ring

/-- Claim C1: for every in-range `(p, r, j)`, with `x = normalized_angles[j]`,
`idx = floor x` and `t = x - idx`, the kernel writes to `out[p][r][j]` the
value `proj[p][r][0]` when `idx < 0`, the value
`proj[p][r][orig_num_detectors - 1]` when `idx >= orig_num_detectors - 1`,
and otherwise the blend `(1 - t) * proj[p][r][idx] + t * proj[p][r][idx + 1]`
(arithmetic modelled exactly over `ℚ`). -/
theorem c1_per_sample_formula (proj normalized_angles out : ℤ → ℚ)
    (num_proj num_rows orig_num_detectors num_cols : ℕ) (i r j : ℕ)
    (hi : i < num_proj) (hr : r < num_rows) (hj : j < num_cols) :
    interpolation_loop proj normalized_angles out num_proj num_rows orig_num_detectors num_cols
        (((i * num_rows + r) * num_cols + j : ℕ) : ℤ)
      = if ⌊normalized_angles (j : ℤ)⌋ < 0 then
          proj (((i * num_rows + r) * orig_num_detectors : ℕ) : ℤ)
        else if (orig_num_detectors : ℤ) - 1 ≤ ⌊normalized_angles (j : ℤ)⌋ then
          proj ((((i * num_rows + r) * orig_num_detectors : ℕ) : ℤ) +
            (orig_num_detectors : ℤ) - 1)
        else
          (1 - (normalized_angles (j : ℤ) - (⌊normalized_angles (j : ℤ)⌋ : ℚ)))
              * proj ((((i * num_rows + r) * orig_num_detectors : ℕ) : ℤ) +
                  ⌊normalized_angles (j : ℤ)⌋)
            + (normalized_angles (j : ℤ) - (⌊normalized_angles (j : ℤ)⌋ : ℚ))
              * proj ((((i * num_rows + r) * orig_num_detectors : ℕ) : ℤ) +
                  ⌊normalized_angles (j : ℤ)⌋ + 1) := by
  rw [outBase_cast,
    interpolation_loop_at proj normalized_angles out _ _ _ _ i r j hi hr hj]
  rfl

theorem c1_witness : 0 < 1 ∧
    interpolation_loop (fun _ => (3 : ℚ)) (fun _ => 0) (fun _ => 0) 1 1 1 1 0 = 3 :=
  ⟨by decide, by
    have h := c1_per_sample_formula (fun _ => (3 : ℚ)) (fun _ => 0) (fun _ => 0)
      1 1 1 1 0 0 0 (by decide) (by decide) (by decide)
    exact h.trans (by norm_num)⟩

/-- Claim C6: the two source functions `interp_loop` (from
`c_library/interpolate.c`) and `interpolation_loop` (from
`flattening/interpolate.c`) compute the same function when their
parameters are identified positionally (`num_angles` with `num_proj`). -/
theorem c6_kernels_equal (proj normalized_angles out : ℤ → ℚ)
    (num_angles num_rows orig_num_detectors num_cols : ℕ) (off : ℤ) :
    interp_loop proj normalized_angles out num_angles num_rows orig_num_detectors num_cols off
      = interpolation_loop proj normalized_angles out
          num_angles num_rows orig_num_detectors num_cols off := rfl

/-- Claim C8: the fractional part `t = x - idx` computed by the kernel
(with `idx` the floor of `x`) lies in the half-open interval `[0, 1)`,
for every column `j` and every value of `normalized_angles[j]`. -/
theorem c8_fractional_part_in_unit_interval (normalized_angles : ℤ → ℚ) (j : ℤ) :
    0 ≤ kernelT normalized_angles j ∧ kernelT normalized_angles j < 1 := by
  unfold kernelT
  constructor
  · have h := Int.floor_le (normalized_angles j)
    linarith
  · have h := Int.lt_floor_add_one (normalized_angles j)
    push_cast at h
    linarith

lemma interpSample_left (proj normalized_angles : ℤ → ℚ) (orig_num_detectors pb j : ℤ)
    (h : ⌊normalized_angles j⌋ < 0) :
    interpSample proj normalized_angles orig_num_detectors pb j = proj pb := by
  simp only [interpSample]
  rw [if_pos h]

lemma interpSample_right (proj normalized_angles : ℤ → ℚ) (orig_num_detectors pb j : ℤ)
    (h0 : 0 ≤ ⌊normalized_angles j⌋) (h1 : orig_num_detectors - 1 ≤ ⌊normalized_angles j⌋) :
    interpSample proj normalized_angles orig_num_detectors pb j
      = proj (pb + orig_num_detectors - 1) := by
  simp only [interpSample]
  rw [if_neg (by omega), if_pos h1]

lemma interpSample_mid (proj normalized_angles : ℤ → ℚ) (orig_num_detectors pb j : ℤ)
    (h0 : 0 ≤ ⌊normalized_angles j⌋) (h1 : ⌊normalized_angles j⌋ < orig_num_detectors - 1) :
    interpSample proj normalized_angles orig_num_detectors pb j
      = (1 - (normalized_angles j - (⌊normalized_angles j⌋ : ℚ)))
            * proj (pb + ⌊normalized_angles j⌋)
          + (normalized_angles j - (⌊normalized_angles j⌋ : ℚ))
            * proj (pb + ⌊normalized_angles j⌋ + 1) := by
  simp only [interpSample]
  rw [if_neg (by omega), if_neg (by omega)]

lemma rowBound (num_proj num_rows : ℕ) {i r : ℕ} (hi : i < num_proj) (hr : r < num_rows) :
    i * num_rows + r + 1 ≤ num_proj * num_rows := by
  have h1 : i * num_rows + (r + 1) ≤ i * num_rows + num_rows :=
    Nat.add_le_add_left hr (i * num_rows)
  have h2 : i * num_rows + num_rows = (i + 1) * num_rows := (Nat.succ_mul i num_rows).symm
  have h3 : (i + 1) * num_rows ≤ num_proj * num_rows := Nat.mul_le_mul_right num_rows hi
  omega

lemma wrap32_eq_self {n : ℤ} (h0 : 0 ≤ n) (h1 : n < 2 ^ 31) : wrap32 n = n := by
  unfold wrap32
  rw [Int.emod_eq_of_lt (by linarith) (by linarith)]
  ring

lemma natWrap {n : ℕ} (h : n < 2 ^ 31) : wrap32 ((n : ℕ) : ℤ) = n :=
  wrap32_eq_self (Int.natCast_nonneg n) (by exact_mod_cast h)

lemma proj_offset32_eq (num_proj num_rows orig_num_detectors : ℕ) {i r : ℕ}
    (hond : 1 ≤ orig_num_detectors)
    (hb : num_proj * num_rows * orig_num_detectors < 2 ^ 31)
    (hi : i < num_proj) (hr : r < num_rows) :
    proj_offset32 (num_rows : ℤ) (orig_num_detectors : ℤ) (i : ℤ) (r : ℤ)
      = (((i * num_rows + r) * orig_num_detectors : ℕ) : ℤ) := by
  have hrowP : i * num_rows + r + 1 ≤ num_proj * num_rows := rowBound _ _ hi hr
  have hPRond : num_proj * num_rows ≤ num_proj * num_rows * orig_num_detectors := by
    calc num_proj * num_rows = num_proj * num_rows * 1 := (Nat.mul_one _).symm
      _ ≤ num_proj * num_rows * orig_num_detectors :=
          Nat.mul_le_mul_left (num_proj * num_rows) hond
  have hpN : (i * num_rows + r) * orig_num_detectors + orig_num_detectors
      ≤ num_proj * num_rows * orig_num_detectors := by
    calc (i * num_rows + r) * orig_num_detectors + orig_num_detectors
        = (i * num_rows + r + 1) * orig_num_detectors := (Nat.succ_mul _ _).symm
      _ ≤ num_proj * num_rows * orig_num_detectors :=
          Nat.mul_le_mul_right orig_num_detectors hrowP
  have hir : i * num_rows ≤ i * num_rows + r := Nat.le_add_right _ _
  have hb_ir : i * num_rows < 2 ^ 31 := by linarith
  have hb_irr : i * num_rows + r < 2 ^ 31 := by linarith
  have hb_p : (i * num_rows + r) * orig_num_detectors < 2 ^ 31 := by linarith
  have e1 : (i : ℤ) * (num_rows : ℤ) = ((i * num_rows : ℕ) : ℤ) := by push_cast; ring
  have e2 : ((i * num_rows : ℕ) : ℤ) + (r : ℤ) = ((i * num_rows + r : ℕ) : ℤ) := by
    push_cast; ring
  have e3 : ((i * num_rows + r : ℕ) : ℤ) * (orig_num_detectors : ℤ)
      = (((i * num_rows + r) * orig_num_detectors : ℕ) : ℤ) := by push_cast; ring
  unfold proj_offset32
  rw [e1, natWrap hb_ir, e2, natWrap hb_irr, e3, natWrap hb_p]

lemma out_offset32_eq (num_proj num_rows num_cols : ℕ) {i r : ℕ}
    (hC : 1 ≤ num_cols) (hb : num_proj * num_rows * num_cols < 2 ^ 31)
    (hi : i < num_proj) (hr : r < num_rows) :
    out_offset32 (num_rows : ℤ) (num_cols : ℤ) (i : ℤ) (r : ℤ)
      = (((i * num_rows + r) * num_cols : ℕ) : ℤ) := by
  have h := proj_offset32_eq num_proj num_rows num_cols hC hb hi hr
  unfold proj_offset32 at h
  unfold out_offset32
  exact h

/-- Counterexample to claim C2 as stated: with extents
`num_proj = 2`, `num_rows = 2^15`, `orig_num_detectors = 2^16` (which
satisfy the data-model invariants the claim enumerates) and
`normalized_angles[0] = -1`, the read the kernel performs for the work
item `i = 1`, `r = 0` at column `j = 0` uses the 32-bit row base
`-2^31`, which lies outside the stated
`num_proj * num_rows * orig_num_detectors` extent. -/
theorem c2_counterexample :
    ¬ (∀ off ∈ sampleReads32 (fun _ => (-1 : ℚ)) ((2 ^ 16 : ℕ) : ℤ)
          (proj_offset32 ((2 ^ 15 : ℕ) : ℤ) ((2 ^ 16 : ℕ) : ℤ) ((1 : ℕ) : ℤ) ((0 : ℕ) : ℤ))
          ((0 : ℕ) : ℤ),
        0 ≤ off ∧ off < ((2 * 2 ^ 15 * 2 ^ 16 : ℕ) : ℤ)) := by
  intro h
  have hfl : ⌊(-1 : ℚ)⌋ = -1 := by
    have h1 := Int.floor_intCast (α := ℚ) (-1)
    simpa using h1
  have hmem : proj_offset32 ((2 ^ 15 : ℕ) : ℤ) ((2 ^ 16 : ℕ) : ℤ) ((1 : ℕ) : ℤ) ((0 : ℕ) : ℤ)
      ∈ sampleReads32 (fun _ => (-1 : ℚ)) ((2 ^ 16 : ℕ) : ℤ)
        (proj_offset32 ((2 ^ 15 : ℕ) : ℤ) ((2 ^ 16 : ℕ) : ℤ) ((1 : ℕ) : ℤ) ((0 : ℕ) : ℤ))
        ((0 : ℕ) : ℤ) := by
    simp [sampleReads32, hfl]
  have hb := (h _ hmem).1
  have hval : proj_offset32 ((2 ^ 15 : ℕ) : ℤ) ((2 ^ 16 : ℕ) : ℤ) ((1 : ℕ) : ℤ) ((0 : ℕ) : ℤ)
      = -(2 ^ 31) := by decide
  rw [hval] at hb
  exact absurd hb (by norm_num)

/-- Claim C2, amended: the kernel addresses through 32-bit `int` offsets,
so bounded accesses additionally require the implicit volume limits
`num_proj * num_rows * orig_num_detectors < 2^31` and
`num_proj * num_rows * num_cols < 2^31` (claim C10); under the data-model
invariants together with those limits, every `proj` offset the kernel body
reads (computed in 32-bit arithmetic) lies inside the
`num_proj * num_rows * orig_num_detectors` extent and the 32-bit `out`
offset it writes lies inside the `num_proj * num_rows * num_cols` extent,
for arbitrary finite (arbitrarily large or negative) rational values in
`normalized_angles`; the embedded kernel is a total function with no error
branch. -/
theorem c2_memory_safety (normalized_angles : ℤ → ℚ)
    (num_proj num_rows orig_num_detectors num_cols : ℕ) (i r j : ℕ)
    (hond : 1 ≤ orig_num_detectors)
    (hb1 : num_proj * num_rows * orig_num_detectors < 2 ^ 31)
    (hb2 : num_proj * num_rows * num_cols < 2 ^ 31)
    (hi : i < num_proj) (hr : r < num_rows) (hj : j < num_cols) :
    (∀ off ∈ sampleReads32 normalized_angles (orig_num_detectors : ℤ)
        (proj_offset32 (num_rows : ℤ) (orig_num_detectors : ℤ) (i : ℤ) (r : ℤ)) (j : ℤ),
      0 ≤ off ∧ off < ((num_proj * num_rows * orig_num_detectors : ℕ) : ℤ))
    ∧ 0 ≤ wrap32 (out_offset32 (num_rows : ℤ) (num_cols : ℤ) (i : ℤ) (r : ℤ) + (j : ℤ))
    ∧ wrap32 (out_offset32 (num_rows : ℤ) (num_cols : ℤ) (i : ℤ) (r : ℤ) + (j : ℤ))
        < ((num_proj * num_rows * num_cols : ℕ) : ℤ) := by
  have hC : 1 ≤ num_cols := Nat.lt_of_le_of_lt (Nat.zero_le j) hj
  have hrowP : i * num_rows + r + 1 ≤ num_proj * num_rows := rowBound _ _ hi hr
  have hpN : (i * num_rows + r) * orig_num_detectors + orig_num_detectors
      ≤ num_proj * num_rows * orig_num_detectors := by
    calc (i * num_rows + r) * orig_num_detectors + orig_num_detectors
        = (i * num_rows + r + 1) * orig_num_detectors := (Nat.succ_mul _ _).symm
      _ ≤ num_proj * num_rows * orig_num_detectors :=
          Nat.mul_le_mul_right orig_num_detectors hrowP
  have hoN : (i * num_rows + r) * num_cols + num_cols
      ≤ num_proj * num_rows * num_cols := by
    calc (i * num_rows + r) * num_cols + num_cols
        = (i * num_rows + r + 1) * num_cols := (Nat.succ_mul _ _).symm
      _ ≤ num_proj * num_rows * num_cols := Nat.mul_le_mul_right num_cols hrowP
  have hpb := proj_offset32_eq num_proj num_rows orig_num_detectors hond hb1 hi hr
  have hob := out_offset32_eq num_proj num_rows num_cols hC hb2 hi hr
  have hpZ : (((i * num_rows + r) * orig_num_detectors : ℕ) : ℤ) + (orig_num_detectors : ℤ)
      ≤ ((num_proj * num_rows * orig_num_detectors : ℕ) : ℤ) := by exact_mod_cast hpN
  have hoZ : (((i * num_rows + r) * num_cols : ℕ) : ℤ) + (num_cols : ℤ)
      ≤ ((num_proj * num_rows * num_cols : ℕ) : ℤ) := by exact_mod_cast hoN
  have hp0 : (0 : ℤ) ≤ (((i * num_rows + r) * orig_num_detectors : ℕ) : ℤ) :=
    Int.natCast_nonneg _
  have ho0 : (0 : ℤ) ≤ (((i * num_rows + r) * num_cols : ℕ) : ℤ) := Int.natCast_nonneg _
  have hbig1 : ((num_proj * num_rows * orig_num_detectors : ℕ) : ℤ) < 2 ^ 31 := by
    exact_mod_cast hb1
  have hbig2 : ((num_proj * num_rows * num_cols : ℕ) : ℤ) < 2 ^ 31 := by exact_mod_cast hb2
  have hondZ : (1 : ℤ) ≤ (orig_num_detectors : ℤ) := by exact_mod_cast hond
  have hjC : (j : ℤ) < (num_cols : ℤ) := by exact_mod_cast hj
  have hj0 : (0 : ℤ) ≤ (j : ℤ) := Int.natCast_nonneg j
  rw [hpb, hob]
  refine ⟨?_, ?_, ?_⟩
  · intro off hoff
    simp only [sampleReads32] at hoff
    split_ifs at hoff with h1 h2
    · simp only [List.mem_singleton] at hoff
      subst hoff
      exact ⟨hp0, by linarith⟩
    · have w1 : wrap32 ((((i * num_rows + r) * orig_num_detectors : ℕ) : ℤ)
          + (orig_num_detectors : ℤ))
          = (((i * num_rows + r) * orig_num_detectors : ℕ) : ℤ) + (orig_num_detectors : ℤ) :=
        wrap32_eq_self (by linarith) (by linarith)
      rw [w1] at hoff
      have w2 : wrap32 ((((i * num_rows + r) * orig_num_detectors : ℕ) : ℤ)
          + (orig_num_detectors : ℤ) - 1)
          = (((i * num_rows + r) * orig_num_detectors : ℕ) : ℤ)
              + (orig_num_detectors : ℤ) - 1 :=
        wrap32_eq_self (by linarith) (by linarith)
      rw [w2] at hoff
      simp only [List.mem_singleton] at hoff
      subst hoff
      exact ⟨by linarith, by linarith⟩
    · have hidx0 : 0 ≤ ⌊normalized_angles (j : ℤ)⌋ := by omega
      have hidx1 : ⌊normalized_angles (j : ℤ)⌋ < (orig_num_detectors : ℤ) - 1 := by omega
      have w3 : wrap32 ((((i * num_rows + r) * orig_num_detectors : ℕ) : ℤ)
          + ⌊normalized_angles (j : ℤ)⌋)
          = (((i * num_rows + r) * orig_num_detectors : ℕ) : ℤ)
              + ⌊normalized_angles (j : ℤ)⌋ :=
        wrap32_eq_self (by linarith) (by linarith)
      rw [w3] at hoff
      have w4 : wrap32 ((((i * num_rows + r) * orig_num_detectors : ℕ) : ℤ)
          + ⌊normalized_angles (j : ℤ)⌋ + 1)
          = (((i * num_rows + r) * orig_num_detectors : ℕ) : ℤ)
              + ⌊normalized_angles (j : ℤ)⌋ + 1 :=
        wrap32_eq_self (by linarith) (by linarith)
      rw [w4] at hoff
      simp only [List.mem_cons, List.not_mem_nil, or_false] at hoff
      rcases hoff with h | h
      · subst h
        exact ⟨by linarith, by linarith⟩
      · subst h
        exact ⟨by linarith, by linarith⟩
  · have w : wrap32 ((((i * num_rows + r) * num_cols : ℕ) : ℤ) + (j : ℤ))
        = (((i * num_rows + r) * num_cols : ℕ) : ℤ) + (j : ℤ) :=
      wrap32_eq_self (by linarith) (by linarith)
    rw [w]
    linarith
  · have w : wrap32 ((((i * num_rows + r) * num_cols : ℕ) : ℤ) + (j : ℤ))
        = (((i * num_rows + r) * num_cols : ℕ) : ℤ) + (j : ℤ) :=
      wrap32_eq_self (by linarith) (by linarith)
    rw [w]
    linarith

theorem c2_witness : 1 ≤ 1 ∧ (1 * 1 * 1 : ℕ) < 2 ^ 31 ∧ (0 : ℕ) < 1 ∧
    (∀ off ∈ sampleReads32 (fun _ => (10 ^ 100 : ℚ)) ((1 : ℕ) : ℤ)
        (proj_offset32 ((1 : ℕ) : ℤ) ((1 : ℕ) : ℤ) ((0 : ℕ) : ℤ) ((0 : ℕ) : ℤ)) ((0 : ℕ) : ℤ),
      0 ≤ off ∧ off < ((1 * 1 * 1 : ℕ) : ℤ)) :=
  ⟨le_refl 1, by norm_num, Nat.zero_lt_one,
    (c2_memory_safety (fun _ => (10 ^ 100 : ℚ)) 1 1 1 1 0 0 0
      (le_refl 1) (by norm_num) (by norm_num) Nat.zero_lt_one Nat.zero_lt_one
      Nat.zero_lt_one).1⟩

/-- Claim C3: for in-range `(p, r, j)`, if `normalized_angles[j] < 0` the
output sample equals `proj[p][r][0]` (unconditionally), and — under the
data-model invariant `orig_num_detectors >= 1` — if
`normalized_angles[j] >= orig_num_detectors - 1` it equals
`proj[p][r][orig_num_detectors - 1]` (strict clamping, no extrapolation). -/
theorem c3_edge_clamps (proj normalized_angles out : ℤ → ℚ)
    (num_proj num_rows orig_num_detectors num_cols : ℕ) (i r j : ℕ)
    (hi : i < num_proj) (hr : r < num_rows) (hj : j < num_cols) :
    (normalized_angles (j : ℤ) < 0 →
      interpolation_loop proj normalized_angles out
          num_proj num_rows orig_num_detectors num_cols
          (((i * num_rows + r) * num_cols + j : ℕ) : ℤ)
        = proj (((i * num_rows + r) * orig_num_detectors : ℕ) : ℤ))
    ∧ (1 ≤ orig_num_detectors →
      (orig_num_detectors : ℚ) - 1 ≤ normalized_angles (j : ℤ) →
      interpolation_loop proj normalized_angles out
          num_proj num_rows orig_num_detectors num_cols
          (((i * num_rows + r) * num_cols + j : ℕ) : ℤ)
        = proj ((((i * num_rows + r) * orig_num_detectors : ℕ) : ℤ) +
            (orig_num_detectors : ℤ) - 1)) := by
  rw [outBase_cast,
    interpolation_loop_at proj normalized_angles out _ _ _ _ i r j hi hr hj]
  constructor
  · intro hx
    exact interpSample_left proj normalized_angles _ _ _
      (Int.floor_lt.mpr (by exact_mod_cast hx))
  · intro hond hx
    have h1 : (orig_num_detectors : ℤ) - 1 ≤ ⌊normalized_angles (j : ℤ)⌋ := by
      apply Int.le_floor.mpr
      push_cast
      exact hx
    have hondZ : (1 : ℤ) ≤ (orig_num_detectors : ℤ) := by exact_mod_cast hond
    exact interpSample_right proj normalized_angles _ _ _ (by omega) h1

theorem c3_witness : (0 : ℕ) < 1 ∧
    interpolation_loop (fun _ => (5 : ℚ)) (fun _ => -1) (fun _ => 0) 1 1 1 1 0 = 5 :=
  ⟨Nat.zero_lt_one, by
    have h := (c3_edge_clamps (fun _ => (5 : ℚ)) (fun _ => -1) (fun _ => 0)
      1 1 1 1 0 0 0 Nat.zero_lt_one Nat.zero_lt_one Nat.zero_lt_one).1
      (by norm_num)
    exact h.trans (by norm_num)⟩

/-- Claim C4: when `num_cols = orig_num_detectors` and
`normalized_angles[j] = j` exactly for every column, the kernel reproduces
the input: `out[p][r][j] = proj[p][r][j]` for every in-range `(p, r, j)`
(equality of values in the exact rational model). -/
theorem c4_identity_mapping (proj normalized_angles out : ℤ → ℚ)
    (num_proj num_rows orig_num_detectors num_cols : ℕ) (i r j : ℕ)
    (hceq : num_cols = orig_num_detectors)
    (hangles : ∀ k : ℕ, k < num_cols → normalized_angles (k : ℤ) = (k : ℚ))
    (hi : i < num_proj) (hr : r < num_rows) (hj : j < num_cols) :
    interpolation_loop proj normalized_angles out
        num_proj num_rows orig_num_detectors num_cols
        (((i * num_rows + r) * num_cols + j : ℕ) : ℤ)
      = proj (((i * num_rows + r) * orig_num_detectors + j : ℕ) : ℤ) := by
  rw [outBase_cast,
    interpolation_loop_at proj normalized_angles out _ _ _ _ i r j hi hr hj]
  have hx : normalized_angles (j : ℤ) = (j : ℚ) := hangles j hj
  have hfl : ⌊normalized_angles (j : ℤ)⌋ = (j : ℤ) := by
    rw [hx]
    exact_mod_cast Int.floor_natCast j
  have hjond : (j : ℤ) < (orig_num_detectors : ℤ) := by
    rw [← hceq]
    exact_mod_cast hj
  have hpb : (((i * num_rows + r) * orig_num_detectors + j : ℕ) : ℤ)
      = projBase num_rows orig_num_detectors (i, r) + (j : ℤ) := by
    simp only [projBase]
    push_cast
    ring
  have h0 : 0 ≤ ⌊normalized_angles (j : ℤ)⌋ := by
    rw [hfl]
    exact Int.natCast_nonneg j
  by_cases hedge : (orig_num_detectors : ℤ) - 1 ≤ (j : ℤ)
  · have hje : (j : ℤ) = (orig_num_detectors : ℤ) - 1 := by omega
    have hedgef : (orig_num_detectors : ℤ) - 1 ≤ ⌊normalized_angles (j : ℤ)⌋ := by
      rw [hfl]
      exact hedge
    rw [interpSample_right proj normalized_angles _ _ _ h0 hedgef, hpb]
    congr 1
    linarith
  · have hmidf : ⌊normalized_angles (j : ℤ)⌋ < (orig_num_detectors : ℤ) - 1 := by
      rw [hfl]
      omega
    rw [interpSample_mid proj normalized_angles _ _ _ h0 hmidf]
    rw [hfl, hx, hpb]
    push_cast
    ring

theorem c4_witness : (2 : ℕ) = 2 ∧ (1 : ℕ) < 2 ∧
    interpolation_loop (fun z => (z : ℚ)) (fun z => (z : ℚ)) (fun _ => 0) 1 1 2 2 1 = 1 :=
  ⟨rfl, Nat.one_lt_two, by
    have h := c4_identity_mapping (fun z => (z : ℚ)) (fun z => (z : ℚ)) (fun _ => 0)
      1 1 2 2 0 0 1 rfl (by intro k hk; norm_cast) Nat.zero_lt_one Nat.zero_lt_one
      Nat.one_lt_two
    exact h.trans (by norm_num)⟩

/-- Claim C7: when `normalized_angles[j] = idx + 1/2` for an integer `idx`
with `0 <= idx < orig_num_detectors - 1`, the output sample equals the
exact average `(proj[p][r][idx] + proj[p][r][idx+1]) / 2` (exact in the
rational model, hence within any rounding tolerance). -/
theorem c7_midpoint_average (proj normalized_angles out : ℤ → ℚ)
    (num_proj num_rows orig_num_detectors num_cols : ℕ) (i r j : ℕ) (idx : ℤ)
    (hidx0 : 0 ≤ idx) (hidx1 : idx < (orig_num_detectors : ℤ) - 1)
    (hx : normalized_angles (j : ℤ) = (idx : ℚ) + 1 / 2)
    (hi : i < num_proj) (hr : r < num_rows) (hj : j < num_cols) :
    interpolation_loop proj normalized_angles out
        num_proj num_rows orig_num_detectors num_cols
        (((i * num_rows + r) * num_cols + j : ℕ) : ℤ)
      = (proj ((((i * num_rows + r) * orig_num_detectors : ℕ) : ℤ) + idx)
          + proj ((((i * num_rows + r) * orig_num_detectors : ℕ) : ℤ) + idx + 1)) / 2 := by
  rw [outBase_cast,
    interpolation_loop_at proj normalized_angles out _ _ _ _ i r j hi hr hj]
  have hhalf : ⌊(1 / 2 : ℚ)⌋ = 0 := by
    apply Int.floor_eq_iff.mpr
    constructor
    · norm_num
    · norm_num
  have hfl : ⌊normalized_angles (j : ℤ)⌋ = idx := by
    rw [hx, Int.floor_int_add, hhalf, add_zero]
  rw [interpSample_mid proj normalized_angles _ _ _ (by rw [hfl]; exact hidx0)
    (by rw [hfl]; exact hidx1)]
  rw [hfl, hx]
  have hpb : projBase num_rows orig_num_detectors (i, r)
      = (((i * num_rows + r) * orig_num_detectors : ℕ) : ℤ) := rfl
  rw [hpb]
  ring

theorem c7_witness : (0 : ℤ) ≤ 0 ∧ (0 : ℤ) < (2 : ℕ) - 1 ∧
    interpolation_loop (fun z => (z : ℚ)) (fun _ => 1 / 2) (fun _ => 0) 1 1 2 1 0 = 1 / 2 :=
  ⟨le_refl 0, by norm_num, by
    have h := c7_midpoint_average (fun z => (z : ℚ)) (fun _ => 1 / 2) (fun _ => 0)
      1 1 2 1 0 0 0 0 (le_refl 0) (by norm_num) (by norm_num)
      Nat.zero_lt_one Nat.zero_lt_one Nat.zero_lt_one
    exact h.trans (by norm_num)⟩

/-- Claim C5: the kernel is deterministic and schedule-independent — for
any permutation of the `(p, r)` work items (any parallel partitioning) and
any prior contents of `out`, every in-range output element receives the
same value as the sequential row-major execution: the result depends only
on `proj`, `normalized_angles` and the extents. -/
theorem c5_schedule_independence (proj normalized_angles : ℤ → ℚ)
    (num_proj num_rows orig_num_detectors num_cols : ℕ)
    (items : List (ℕ × ℕ)) (out1 out2 : ℤ → ℚ) (i r j : ℕ)
    (hperm : items.Perm (workItems num_proj num_rows))
    (hi : i < num_proj) (hr : r < num_rows) (hj : j < num_cols) :
    runItems proj normalized_angles num_rows orig_num_detectors num_cols items out1
        (((i * num_rows + r) * num_cols + j : ℕ) : ℤ)
      = interpolation_loop proj normalized_angles out2
          num_proj num_rows orig_num_detectors num_cols
          (((i * num_rows + r) * num_cols + j : ℕ) : ℤ) := by
  rw [outBase_cast,
    interpolation_loop_at proj normalized_angles out2 _ _ _ _ i r j hi hr hj]
  apply runItems_at
  · intro b hb
    exact (mem_workItems.mp (hperm.mem_iff.mp hb)).2
  · exact hperm.mem_iff.mpr (mem_workItems.mpr ⟨hi, hr⟩)
  · exact hj

theorem c5_witness : (workItems 1 1).Perm (workItems 1 1) ∧
    runItems (fun _ => (2 : ℚ)) (fun _ => 0) 1 1 1 (workItems 1 1) (fun _ => 7) 0
      = interpolation_loop (fun _ => (2 : ℚ)) (fun _ => 0) (fun _ => 9) 1 1 1 1 0 :=
  ⟨List.Perm.refl _,
    c5_schedule_independence (fun _ => (2 : ℚ)) (fun _ => 0) 1 1 1 1
      (workItems 1 1) (fun _ => 7) (fun _ => 9) 0 0 0 (List.Perm.refl _)
      Nat.zero_lt_one Nat.zero_lt_one Nat.zero_lt_one⟩

lemma workItems_succ (num_proj num_rows : ℕ) :
    workItems (num_proj + 1) num_rows
      = workItems num_proj num_rows ++ (List.range num_rows).map fun r => (num_proj, r) := by
  unfold workItems
  rw [List.range_succ, List.flatMap_append]
  simp

lemma workItems_nodup (num_proj num_rows : ℕ) : (workItems num_proj num_rows).Nodup := by
  induction num_proj with
  | zero => simp [workItems]
  | succ n ih =>
    rw [workItems_succ]
    apply List.nodup_append.mpr
    refine ⟨ih, ?_, ?_⟩
    · exact List.Nodup.map (fun a b hab => congrArg Prod.snd hab) (List.nodup_range _)
    · intro a ha hb
      have h1 : a.1 < n := (mem_workItems.mp ha).1
      obtain ⟨r, _, hr⟩ := List.mem_map.mp hb
      rw [← hr] at h1
      exact absurd h1 (lt_irrefl n)

lemma rowTrace_nodup (base : ℤ) (num_cols : ℕ) :
    ((List.range num_cols).map fun j : ℕ => base + (j : ℤ)).Nodup := by
  apply List.Nodup.map
  · intro a b hab
    have hab2 : base + (a : ℤ) = base + (b : ℤ) := hab
    have h : (a : ℤ) = (b : ℤ) := by linarith
    exact_mod_cast h
  · exact List.nodup_range _

lemma traceCount (num_rows num_cols : ℕ) (l : List (ℕ × ℕ)) (ir : ℕ × ℕ) (j : ℕ)
    (hsnd : ∀ b ∈ l, b.2 < num_rows) (hir : ir.2 < num_rows) (hnd : l.Nodup)
    (hmem : ir ∈ l) (hj : j < num_cols) :
    (l.flatMap fun b => (List.range num_cols).map
        fun k : ℕ => outBase num_rows num_cols b + (k : ℤ)).count
      (outBase num_rows num_cols ir + (j : ℤ)) = 1 := by
  induction l with
  | nil => cases hmem
  | cons a l ih =>
    rw [List.flatMap_cons, List.count_append]
    have hndl : l.Nodup := (List.nodup_cons.mp hnd).2
    have hanl : a ∉ l := (List.nodup_cons.mp hnd).1
    by_cases ha : ir = a
    · subst ha
      have h1 : ((List.range num_cols).map
            fun k : ℕ => outBase num_rows num_cols ir + (k : ℤ)).count
          (outBase num_rows num_cols ir + (j : ℤ)) = 1 := by
        apply List.count_eq_one_of_mem (rowTrace_nodup _ _)
        exact List.mem_map.mpr ⟨j, List.mem_range.mpr hj, rfl⟩
      have h2 : (l.flatMap fun b => (List.range num_cols).map
            fun k : ℕ => outBase num_rows num_cols b + (k : ℤ)).count
          (outBase num_rows num_cols ir + (j : ℤ)) = 0 := by
        apply List.count_eq_zero.mpr
        intro hmem2
        obtain ⟨b, hb, hoffb⟩ := List.mem_flatMap.mp hmem2
        obtain ⟨k, hk, heq⟩ := List.mem_map.mp hoffb
        exact outBase_add_ne (hsnd b (List.mem_cons_of_mem _ hb)) hir
          (fun he => hanl (he ▸ hb)) (List.mem_range.mp hk) hj heq
      omega
    · have h1 : ((List.range num_cols).map
            fun k : ℕ => outBase num_rows num_cols a + (k : ℤ)).count
          (outBase num_rows num_cols ir + (j : ℤ)) = 0 := by
        apply List.count_eq_zero.mpr
        intro hmem2
        obtain ⟨k, hk, heq⟩ := List.mem_map.mp hmem2
        exact outBase_add_ne (hsnd a (List.mem_cons_self a l)) hir
          (fun he => ha he.symm) (List.mem_range.mp hk) hj heq
      have hml : ir ∈ l := by
        rcases List.mem_cons.mp hmem with h | h
        · exact absurd h ha
        · exact h
      have h2 := ih (fun b hb => hsnd b (List.mem_cons_of_mem _ hb)) hndl hml
      omega

/-- Claim C9: the kernel writes every in-range `out` element exactly once
(the write trace hits each in-range offset exactly once, and the written
value does not depend on the prior contents of `out`), leaves every `out`
offset outside the stated extents unchanged, and does not modify `proj`
or `normalized_angles`. -/
theorem c9_frame_and_coverage (num_proj num_rows orig_num_detectors num_cols : ℕ)
    (s : Mem) :
    (interpolation_loop_mem num_proj num_rows orig_num_detectors num_cols s).proj = s.proj
    ∧ (interpolation_loop_mem num_proj num_rows orig_num_detectors num_cols s).normalized_angles
        = s.normalized_angles
    ∧ (∀ i r j : ℕ, i < num_proj → r < num_rows → j < num_cols →
        (writeTrace num_proj num_rows num_cols).count
            (((i * num_rows + r) * num_cols + j : ℕ) : ℤ) = 1)
    ∧ (∀ off : ℤ, (∀ i r j : ℕ, i < num_proj → r < num_rows → j < num_cols →
          off ≠ (((i * num_rows + r) * num_cols + j : ℕ) : ℤ)) →
        (interpolation_loop_mem num_proj num_rows orig_num_detectors num_cols s).out off
          = s.out off)
    ∧ (∀ i r j : ℕ, i < num_proj → r < num_rows → j < num_cols → ∀ alt : ℤ → ℚ,
        (interpolation_loop_mem num_proj num_rows orig_num_detectors num_cols s).out
            (((i * num_rows + r) * num_cols + j : ℕ) : ℤ)
          = interpolation_loop s.proj s.normalized_angles alt
              num_proj num_rows orig_num_detectors num_cols
              (((i * num_rows + r) * num_cols + j : ℕ) : ℤ)) := by
  refine ⟨rfl, rfl, ?_, ?_, ?_⟩
  · intro i r j hi hr hj
    rw [outBase_cast]
    unfold writeTrace
    exact traceCount num_rows num_cols (workItems num_proj num_rows) (i, r) j
      (fun b hb => (mem_workItems.mp hb).2) hr (workItems_nodup _ _)
      (mem_workItems.mpr ⟨hi, hr⟩) hj
  · intro off hoff
    show interpolation_loop s.proj s.normalized_angles s.out
        num_proj num_rows orig_num_detectors num_cols off = s.out off
    apply runItems_untouched
    intro b hb k hk
    obtain ⟨hb1, hb2⟩ := mem_workItems.mp hb
    have h := hoff b.1 b.2 k hb1 hb2 hk
    rw [outBase_cast] at h
    simpa using h
  · intro i r j hi hr hj alt
    show interpolation_loop s.proj s.normalized_angles s.out
        num_proj num_rows orig_num_detectors num_cols
        (((i * num_rows + r) * num_cols + j : ℕ) : ℤ) = _
    rw [outBase_cast,
      interpolation_loop_at s.proj s.normalized_angles s.out _ _ _ _ i r j hi hr hj,
      interpolation_loop_at s.proj s.normalized_angles alt _ _ _ _ i r j hi hr hj]

/-- Claim C10: the row base offsets and the element offsets derived from
them are computed in 32-bit signed `int` arithmetic; when
`num_proj * num_rows * orig_num_detectors < 2^31` and
`num_proj * num_rows * num_cols < 2^31` every such 32-bit offset equals
the exact mathematical offset, while for extents whose product exceeds
`2^31 - 1` the computed offset wraps: at `num_rows = 2^15`,
`orig_num_detectors = 2^16`, `i = 1`, `r = 0` the 32-bit row base is
`-2^31` instead of the exact `2^31`. -/
theorem c10_offset32_bound (num_proj num_rows orig_num_detectors num_cols i r : ℕ)
    (hond : 1 ≤ orig_num_detectors) (hC : 1 ≤ num_cols)
    (hb1 : num_proj * num_rows * orig_num_detectors < 2 ^ 31)
    (hb2 : num_proj * num_rows * num_cols < 2 ^ 31)
    (hi : i < num_proj) (hr : r < num_rows) :
    (proj_offset32 (num_rows : ℤ) (orig_num_detectors : ℤ) (i : ℤ) (r : ℤ)
        = (((i * num_rows + r) * orig_num_detectors : ℕ) : ℤ)
      ∧ out_offset32 (num_rows : ℤ) (num_cols : ℤ) (i : ℤ) (r : ℤ)
        = (((i * num_rows + r) * num_cols : ℕ) : ℤ)
      ∧ (∀ d : ℕ, d < orig_num_detectors →
          wrap32 (proj_offset32 (num_rows : ℤ) (orig_num_detectors : ℤ) (i : ℤ) (r : ℤ) + (d : ℤ))
            = (((i * num_rows + r) * orig_num_detectors + d : ℕ) : ℤ))
      ∧ (∀ d : ℕ, d < num_cols →
          wrap32 (out_offset32 (num_rows : ℤ) (num_cols : ℤ) (i : ℤ) (r : ℤ) + (d : ℤ))
            = (((i * num_rows + r) * num_cols + d : ℕ) : ℤ)))
    ∧ (proj_offset32 (2 ^ 15) (2 ^ 16) 1 0 = -(2 ^ 31)
      ∧ ((1 * 2 ^ 15 + 0) * 2 ^ 16 : ℤ) = 2 ^ 31
      ∧ 2 ^ 31 - 1 < (2 : ℤ) * 2 ^ 15 * 2 ^ 16) := by
  have hrowP : i * num_rows + r + 1 ≤ num_proj * num_rows := rowBound _ _ hi hr
  have hpN : (i * num_rows + r) * orig_num_detectors + orig_num_detectors
      ≤ num_proj * num_rows * orig_num_detectors := by
    calc (i * num_rows + r) * orig_num_detectors + orig_num_detectors
        = (i * num_rows + r + 1) * orig_num_detectors := (Nat.succ_mul _ _).symm
      _ ≤ num_proj * num_rows * orig_num_detectors :=
          Nat.mul_le_mul_right orig_num_detectors hrowP
  have hoN : (i * num_rows + r) * num_cols + num_cols
      ≤ num_proj * num_rows * num_cols := by
    calc (i * num_rows + r) * num_cols + num_cols
        = (i * num_rows + r + 1) * num_cols := (Nat.succ_mul _ _).symm
      _ ≤ num_proj * num_rows * num_cols := Nat.mul_le_mul_right num_cols hrowP
  have hA1 : proj_offset32 (num_rows : ℤ) (orig_num_detectors : ℤ) (i : ℤ) (r : ℤ)
      = (((i * num_rows + r) * orig_num_detectors : ℕ) : ℤ) :=
    proj_offset32_eq num_proj num_rows orig_num_detectors hond hb1 hi hr
  have hA2 : out_offset32 (num_rows : ℤ) (num_cols : ℤ) (i : ℤ) (r : ℤ)
      = (((i * num_rows + r) * num_cols : ℕ) : ℤ) :=
    out_offset32_eq num_proj num_rows num_cols hC hb2 hi hr
  refine ⟨⟨hA1, hA2, ?_, ?_⟩, by decide, by decide, by decide⟩
  · intro d hd
    rw [hA1]
    have e5 : (((i * num_rows + r) * orig_num_detectors : ℕ) : ℤ) + (d : ℤ)
        = (((i * num_rows + r) * orig_num_detectors + d : ℕ) : ℤ) := by push_cast; ring
    rw [e5]
    exact natWrap (by linarith)
  · intro d hd
    rw [hA2]
    have e6 : (((i * num_rows + r) * num_cols : ℕ) : ℤ) + (d : ℤ)
        = (((i * num_rows + r) * num_cols + d : ℕ) : ℤ) := by push_cast; ring
    rw [e6]
    exact natWrap (by linarith)

theorem c10_witness : 1 ≤ 1 ∧ (1 * 1 * 1 : ℕ) < 2 ^ 31 ∧ (0 : ℕ) < 1 ∧
    proj_offset32 ((1 : ℕ) : ℤ) ((1 : ℕ) : ℤ) ((0 : ℕ) : ℤ) ((0 : ℕ) : ℤ)
      = (((0 * 1 + 0) * 1 : ℕ) : ℤ) :=
  ⟨le_refl 1, by norm_num, Nat.zero_lt_one,
    ((c10_offset32_bound 1 1 1 1 0 0 (le_refl 1) (le_refl 1) (by norm_num) (by norm_num)
      Nat.zero_lt_one Nat.zero_lt_one).1).1⟩

theorem c8_witness :
    0 ≤ kernelT (fun _ => 7 / 3) 0 ∧ kernelT (fun _ => 7 / 3) 0 < 1 :=
  c8_fractional_part_in_unit_interval (fun _ => 7 / 3) 0

theorem c9_witness : (writeTrace 1 1 1).count 0 = 1 :=
  (c9_frame_and_coverage 1 1 1 1 ⟨fun _ => 1, fun _ => 0, fun _ => 2⟩).2.2.1 0 0 0
    Nat.zero_lt_one Nat.zero_lt_one Nat.zero_lt_one
